import Mathlib

/-!
Shallow embedding of the PyChess-AI search/evaluation engine (src/main.py).

The Python engine delegates move generation, legality, terminal detection,
check detection and piece lookup to an external rules oracle (python-chess).
We model that oracle as an abstract structure of functions over positions.
A position is modelled as the move stack relative to a fixed root, matching
the mutable python-chess Board whose push/pop operate on a move stack.

Scores in the source are Python floats, but every value that ever arises is
either an exact small integer (sums of piece values and piece-square-table
entries) or one of the two IEEE infinities produced by float(-inf-) /
float(-+inf-).  No rounding ever occurs, so the score domain is modelled
exactly by integers extended with a bottom and a top element.
-/

/-- Scores: integers together with the two IEEE infinities used by the code.
Bottom models -float(inf), top models +float(inf). -/
abbrev Score : Type := WithBot (WithTop ℤ)

/-- Finite score, an exactly representable centipawn value. -/
def finScore (n : ℤ) : Score := ((n : WithTop ℤ) : Score)

/-- The expression float(inf) - 1 evaluated in IEEE arithmetic: it equals
float(inf).  The maximizing branch of minimax compares max_eval against this
value (source line 484), so the comparison is an infinity test. -/
def infMinusOne : Score := ⊤

/-- True exactly on the finite (integer-valued) scores, false on the two
infinities. -/
def scoreIsFinite (s : Score) : Bool := decide (s ≠ ⊥ ∧ s ≠ ⊤)

/-- Negation of a score, with the two infinities exchanged, exactly as IEEE
negation acts on the float values the source manipulates. -/
def scoreNeg (s : Score) : Score :=
  WithBot.recBotCoe (⊤ : Score)
    (fun a => WithTop.recTopCoe (⊥ : Score) (fun n => finScore (-n)) a) s

/-- Piece types use the python-chess encoding: PAWN=1, KNIGHT=2, BISHOP=3,
ROOK=4, QUEEN=5, KING=6.  Color true is chess.WHITE, false is chess.BLACK. -/
structure Piece where
  piece_type : Nat
  color : Bool
deriving DecidableEq, Repr

/-- A move token: from square, to square (0..63, python-chess numbering with
a1 = 0), and an optional promotion piece type. -/
structure Move where
  from_square : Nat
  to_square : Nat
  promotion : Option Nat
deriving DecidableEq, Repr

/-- A position is modelled as the stack of moves pushed onto a fixed root
board: board_copy.push appends a move, board_copy.pop removes the last one.
All oracle queries are functions of this stack. -/
abbrev Pos : Type := List Move

/-- The rules oracle (python-chess in the source): every board query the
engine performs is a field.  is_passed_pawn is optional because the source
guards that attribute access with try/except AttributeError (lines 457-461);
chess.Board has no such attribute, making none the faithful instantiation. -/
structure Game where
  legal_moves : Pos → List Move
  is_game_over : Pos → Bool
  is_checkmate : Pos → Bool
  is_stalemate : Pos → Bool
  is_insufficient_material : Pos → Bool
  turn : Pos → Bool
  piece_at : Pos → Nat → Option Piece
  gives_check : Pos → Move → Bool
  is_passed_pawn : Option (Pos → Nat → Bool)

/-- PIECE_VALUES dictionary (source lines 77-80); .get with default 0. -/
def PIECE_VALUES (t : Nat) : ℤ :=
  match t with
  | 1 => 100
  | 2 => 320
  | 3 => 330
  | 4 => 500
  | 5 => 900
  | 6 => 20000
  | _ => 0

/-- CENTER_FILES = {3, 4} (source line 83). -/
def CENTER_FILES : List Nat := [3, 4]

/-- Pawn piece-square table (source lines 87-96). -/
def PST_PAWN : List ℤ :=
  [0, 0, 0, 0, 0, 0, 0, 0,
   50, 50, 50, 50, 50, 50, 50, 50,
   10, 10, 20, 30, 30, 20, 10, 10,
   5, 5, 10, 25, 25, 10, 5, 5,
   0, 0, 0, 20, 20, 0, 0, 0,
   5, -5, -10, 0, 0, -10, -5, 5,
   5, 10, 10, -20, -20, 10, 10, 5,
   0, 0, 0, 0, 0, 0, 0, 0]

/-- Knight piece-square table (source lines 97-106). -/
def PST_KNIGHT : List ℤ :=
  [-50, -40, -30, -30, -30, -30, -40, -50,
   -40, -20, 0, 0, 0, 0, -20, -40,
   -30, 0, 10, 15, 15, 10, 0, -30,
   -30, 5, 15, 20, 20, 15, 5, -30,
   -30, 0, 15, 20, 20, 15, 0, -30,
   -30, 5, 10, 15, 15, 10, 5, -30,
   -40, -20, 0, 5, 5, 0, -20, -40,
   -50, -40, -30, -30, -30, -30, -40, -50]

/-- Bishop piece-square table (source lines 107-116). -/
def PST_BISHOP : List ℤ :=
  [-20, -10, -10, -10, -10, -10, -10, -20,
   -10, 0, 0, 0, 0, 0, 0, -10,
   -10, 0, 5, 10, 10, 5, 0, -10,
   -10, 5, 5, 10, 10, 5, 5, -10,
   -10, 0, 10, 10, 10, 10, 0, -10,
   -10, 10, 10, 10, 10, 10, 10, -10,
   -10, 5, 0, 0, 0, 0, 5, -10,
   -20, -10, -10, -10, -10, -10, -10, -20]

/-- Rook piece-square table (source lines 117-126). -/
def PST_ROOK : List ℤ :=
  [0, 0, 0, 0, 0, 0, 0, 0,
   5, 10, 10, 10, 10, 10, 10, 5,
   -5, 0, 0, 0, 0, 0, 0, -5,
   -5, 0, 0, 0, 0, 0, 0, -5,
   -5, 0, 0, 0, 0, 0, 0, -5,
   -5, 0, 0, 0, 0, 0, 0, -5,
   -5, 0, 0, 0, 0, 0, 0, -5,
   0, 0, 0, 5, 5, 0, 0, 0]

/-- Queen piece-square table (source lines 127-136).  Note this table is not
left-right symmetric (rows 5 and 6 differ from their reflections). -/
def PST_QUEEN : List ℤ :=
  [-20, -10, -10, -5, -5, -10, -10, -20,
   -10, 0, 0, 0, 0, 0, 0, -10,
   -10, 0, 5, 5, 5, 5, 0, -10,
   -5, 0, 5, 5, 5, 5, 0, -5,
   0, 0, 5, 5, 5, 5, 0, -5,
   -10, 5, 5, 5, 5, 5, 0, -10,
   -10, 0, 5, 0, 0, 0, 0, -10,
   -20, -10, -10, -5, -5, -10, -10, -20]

/-- King piece-square table (source lines 137-146). -/
def PST_KING : List ℤ :=
  [-30, -40, -40, -50, -50, -40, -40, -30,
   -30, -40, -40, -50, -50, -40, -40, -30,
   -30, -40, -40, -50, -50, -40, -40, -30,
   -20, -30, -30, -40, -40, -30, -30, -20,
   -10, -20, -20, -20, -20, -20, -20, -10,
   10, 10, 0, 0, 0, 0, 10, 10,
   20, 20, 10, 0, 0, 10, 20, 20,
   20, 30, 10, 0, 0, 10, 30, 20]

/-- PST dictionary (source lines 86-147); .get, present for types 1..6. -/
def PST (t : Nat) : Option (List ℤ) :=
  match t with
  | 1 => some PST_PAWN
  | 2 => some PST_KNIGHT
  | 3 => some PST_BISHOP
  | 4 => some PST_ROOK
  | 5 => some PST_QUEEN
  | 6 => some PST_KING
  | _ => none

/-- get_piece_value (source lines 274-279): base material value, negated for
black; 0 for an empty square. -/
def get_piece_value (piece : Option Piece) : ℤ :=
  match piece with
  | none => 0
  | some pc =>
    let value := PIECE_VALUES pc.piece_type
    if pc.color then value else -value

/-- get_pst_value (source lines 292-309): positional value from the PST,
read at index square for white and 63 - square for black, negated for black.
The board argument of the source function is unused there and is omitted. -/
def get_pst_value (piece : Option Piece) (square : Nat) : ℤ :=
  match piece with
  | none => 0
  | some pc =>
    match PST pc.piece_type with
    | none => 0
    | some pst =>
      let pst_index := if pc.color then square else 63 - square
      let value := pst.getD pst_index 0
      if pc.color then value else -value

/-- The material-plus-positional accumulation loop of evaluate_board (source
lines 320-329): for every square, material value plus positional value.  The
source guards with if piece, which is redundant since both helpers return 0
on an empty square; integer addition being commutative and associative, the
running float accumulation equals this sum. -/
def boardSum (G : Game) (board_copy : Pos) : ℤ :=
  ∑ s ∈ Finset.range 64,
    (get_piece_value (G.piece_at board_copy s) +
      get_pst_value (G.piece_at board_copy s) s)

/-- evaluate_board (source lines 312-331).  Checkmate returns +inf when the
side to move is black (white, the side not to move, has mated) and -inf when
it is white; stalemate or insufficient material return exactly 0; otherwise
the material-plus-positional sum. -/
def evaluate_board (G : Game) (board_copy : Pos) : Score :=
  if G.is_checkmate board_copy then
    (if G.turn board_copy = false then (⊤ : Score) else (⊥ : Score))
  else if G.is_stalemate board_copy || G.is_insufficient_material board_copy then
    finScore 0
  else
    finScore (boardSum G board_copy)

/-- Material value of an optional piece, as PIECE_VALUES.get(type, 0); used
by both move-priority functions on captured and moving pieces. -/
def pieceTypeValue (piece : Option Piece) : ℤ :=
  match piece with
  | none => 0
  | some pc => PIECE_VALUES pc.piece_type

/-- move_priority as defined inside minimax (source lines 429-463): capture
bonus with an MVV-LVA-style delta, check bonus, promotion bonus, a bonus for
a knight or bishop moving to one of the four central squares (d4=27, e4=28,
d5=35, e5=36), and a passed-pawn bonus guarded by try/except AttributeError
on board.is_passed_pawn. -/
def move_priority (G : Game) (board_copy : Pos) (move : Move) : ℤ :=
  let captured_piece := G.piece_at board_copy move.to_square
  let moving_piece := G.piece_at board_copy move.from_square
  let captureBonus :=
    if captured_piece.isSome then
      10000 + pieceTypeValue captured_piece +
        (if moving_piece.isSome then
          5000 + (pieceTypeValue captured_piece - pieceTypeValue moving_piece)
        else 0)
    else 0
  let checkBonus := if G.gives_check board_copy move then 5000 else 0
  let promoBonus := if move.promotion.isSome then 15000 else 0
  let developBonus :=
    match moving_piece with
    | some pc =>
      if (pc.piece_type = 2 ∨ pc.piece_type = 3) ∧
          (move.to_square = 27 ∨ move.to_square = 35 ∨
            move.to_square = 28 ∨ move.to_square = 36) then 2000 else 0
    | none => 0
  let passedBonus :=
    match moving_piece, G.is_passed_pawn with
    | some pc, some f =>
      if pc.piece_type = 1 ∧ f board_copy move.from_square then 1500 else 0
    | _, _ => 0
  captureBonus + checkBonus + promoBonus + developBonus + passedBonus

/-- move_priority as defined inside get_ai_move (source lines 535-564): the
same capture, check, promotion and development bonuses, but the pawn bonus
rewards a pawn moving to a central file (to_square file in CENTER_FILES). -/
def move_priority_root (G : Game) (board_copy : Pos) (move : Move) : ℤ :=
  let captured_piece := G.piece_at board_copy move.to_square
  let moving_piece := G.piece_at board_copy move.from_square
  let captureBonus :=
    if captured_piece.isSome then
      10000 + pieceTypeValue captured_piece +
        (if moving_piece.isSome then
          5000 + (pieceTypeValue captured_piece - pieceTypeValue moving_piece)
        else 0)
    else 0
  let checkBonus := if G.gives_check board_copy move then 5000 else 0
  let promoBonus := if move.promotion.isSome then 15000 else 0
  let developBonus :=
    match moving_piece with
    | some pc =>
      if (pc.piece_type = 2 ∨ pc.piece_type = 3) ∧
          (move.to_square = 27 ∨ move.to_square = 35 ∨
            move.to_square = 28 ∨ move.to_square = 36) then 2000 else 0
    | none => 0
  let pawnFileBonus :=
    match moving_piece with
    | some pc =>
      if pc.piece_type = 1 ∧ move.to_square % 8 ∈ CENTER_FILES then 500 else 0
    | none => 0
  captureBonus + checkBonus + promoBonus + developBonus + pawnFileBonus

/-- Stable insertion of a move into a list kept in descending key order:
the move is placed before the first element whose key does not exceed its
own, so earlier-enumerated moves precede later ones with equal keys. -/
def insertDesc (key : Move → ℤ) (m : Move) : List Move → List Move
  | [] => [m]
  | x :: xs => if key x ≤ key m then m :: x :: xs else x :: insertDesc key m xs

/-- Stable descending sort by key.  This is the specification of the Python
call list.sort(key=..., reverse=True): a stable sort into descending key
order; any two stable sorts agree, so insertion sort gives the same list. -/
def sortDesc (key : Move → ℤ) : List Move → List Move
  | [] => []
  | a :: l => insertDesc key a (sortDesc key l)

/-- legal_moves = list(board.legal_moves) then sorted by move_priority in
descending order (source lines 427 and 465). -/
def orderedMoves (G : Game) (p : Pos) : List Move :=
  sortDesc (move_priority G p) (G.legal_moves p)

/-- Root move list of get_ai_move, ranked by its own priority (lines 533,
566). -/
def orderedRootMoves (G : Game) (p : Pos) : List Move :=
  sortDesc (move_priority_root G p) (G.legal_moves p)

/-!
The search.  Wall-clock timeout checks are modelled by a timeline, a
function from check indices to booleans: the n-th evaluation of the guard
time.time() - start_time > MAX_SEARCH_TIME during one get_ai_move call
returns the n-th timeline value.  Every monotone real execution is one such
timeline; an ample budget is the constant-false timeline and an expired
budget the constant-true one.  The board is threaded explicitly: push
appends to the move stack, pop drops the last entry, and each recursive
call returns the (possibly mutated) board it leaves behind, so theorems
about restoration are about the control flow of the source, not about the
data structure.
-/

/-- The never-expiring timeline: an ample time budget. -/
def tlNever : Nat → Bool := fun _ => false

/-- The immediately-expired timeline: a zero time budget. -/
def tlAlways : Nat → Bool := fun _ => true

/-- The maximizing loop of minimax (source lines 467-489).  The child search
receives the current alpha; after each child, max_eval and alpha are raised;
the loop stops early when max_eval reaches float(inf) - 1 (the mate break)
or when beta <= alpha (the pruning break).  Returns the running maximum, the
board left behind, and the next timeline index. -/
def maxLoop (beta : Score) (child : Score → Pos → Nat → Score × Pos × Nat) :
    List Move → Score → Score → Pos → Nat → Score × Pos × Nat
  | [], max_eval, _alpha, p, t => (max_eval, p, t)
  | m :: rest, max_eval, alpha, p, t =>
    let r := child alpha (p ++ [m]) t
    let p2 := r.2.1.dropLast
    let max1 := max max_eval r.1
    let alpha1 := max alpha max1
    if infMinusOne ≤ max1 then (max1, p2, r.2.2)
    else if beta ≤ alpha1 then (max1, p2, r.2.2)
    else maxLoop beta child rest max1 alpha1 p2 r.2.2

/-- The minimizing loop of minimax (source lines 490-507): symmetric, with
no mate break. -/
def minLoop (alpha : Score) (child : Score → Pos → Nat → Score × Pos × Nat) :
    List Move → Score → Score → Pos → Nat → Score × Pos × Nat
  | [], min_eval, _beta, p, t => (min_eval, p, t)
  | m :: rest, min_eval, beta, p, t =>
    let r := child beta (p ++ [m]) t
    let p2 := r.2.1.dropLast
    let min1 := min min_eval r.1
    let beta1 := min beta min1
    if beta1 ≤ alpha then (min1, p2, r.2.2)
    else minLoop alpha child rest min1 beta1 p2 r.2.2

/-- minimax (source lines 415-507).  Base case: timeout, depth 0, or game
over returns the static evaluation; otherwise the legal moves are ranked and
scanned by the maximizing or minimizing loop.  Each node entry consumes one
timeline index.  The depth-0 case folds the depth == 0 disjunct of the
source guard into the pattern match: the result is the same evaluation and
the same single timeline index. -/
def minimax (G : Game) (tl : Nat → Bool) :
    Nat → Score → Score → Bool → Pos → Nat → Score × Pos × Nat
  | 0, _alpha, _beta, _maximizing, p, t => (evaluate_board G p, p, t + 1)
  | d + 1, alpha, beta, maximizing, p, t =>
    if tl t || G.is_game_over p then (evaluate_board G p, p, t + 1)
    else
      let ms := orderedMoves G p
      if maximizing then
        maxLoop beta (fun a q u => minimax G tl d a beta false q u) ms ⊥ alpha p (t + 1)
      else
        minLoop alpha (fun b q u => minimax G tl d alpha b true q u) ms ⊤ beta p (t + 1)

/-- Outcome of the opening-book call OPENING_BOOK.choice(board) at the root:
a returned entry, an IndexError (no entry for the position), or any other
raised error (unavailable or corrupt book). -/
inductive BookOutcome where
  | entry (m : Move)
  | indexError
  | otherError
deriving DecidableEq, Repr

/-- The root move loop of get_ai_move (source lines 568-589): for each
ranked move, first the per-iteration timeout check, then push, a full-window
minimax call at depth - 1 with maximizing False, pop, and a strict
improvement test recording the move (source line 586). -/
def rootLoop (G : Game) (tl : Nat → Bool) (depth : Nat) :
    List Move → Option Move → Score → Pos → Nat →
      Option Move × Score × Pos × Nat
  | [], best_move, max_eval, p, t => (best_move, max_eval, p, t)
  | m :: rest, best_move, max_eval, p, t =>
    if tl t then (best_move, max_eval, p, t + 1)
    else
      let r := minimax G tl (depth - 1) ⊥ ⊤ false (p ++ [m]) (t + 1)
      let p2 := r.2.1.dropLast
      if max_eval < r.1 then rootLoop G tl depth rest (some m) r.1 p2 r.2.2
      else rootLoop G tl depth rest best_move max_eval p2 r.2.2

/-- The search phase of get_ai_move (source lines 531-601): rank the root
moves, run the root loop from best_move None and max_eval -inf, and return
the recorded move (None when none was recorded) with the final board. -/
def searchPhase (G : Game) (tl : Nat → Bool) (p : Pos) (depth : Nat) :
    Except Unit (Option Move) × Pos :=
  let ms := orderedRootMoves G p
  let r := rootLoop G tl depth ms none ⊥ p 0
  (Except.ok r.1, r.2.2.1)

/-- get_ai_move (source lines 510-601).  When depth <= 3 and the book is
available, the book is consulted: an entry is returned at once, an
IndexError is caught and falls through to search, and any other raised
error propagates out of the function (only IndexError is caught, line 527);
the propagated error is the Except.error result.  Otherwise the search
phase runs.  The board the caller passed is returned alongside. -/
def get_ai_move (G : Game) (tl : Nat → Bool) (bookAvailable : Bool)
    (book : BookOutcome) (board_copy : Pos) (depth : Nat) :
    Except Unit (Option Move) × Pos :=
  if depth ≤ 3 ∧ bookAvailable = true then
    match book with
    | BookOutcome.entry m => (Except.ok (some m), board_copy)
    | BookOutcome.indexError => searchPhase G tl board_copy depth
    | BookOutcome.otherError => (Except.error (), board_copy)
  else searchPhase G tl board_copy depth

/-!
Pure counterparts of the search, used to state and prove value-level
properties.  They strip the board and timeline threading (legitimate under
the never-expiring timeline once restoration is proved) but keep the
identical alpha-beta logic, and a full-width minimax with no pruning at all.
-/

/-- Pure maximizing loop: maxLoop without board and timeline threading. -/
def pureMaxLoop (beta : Score) (child : Score → Pos → Score) :
    List Move → Score → Score → Pos → Score
  | [], max_eval, _alpha, _p => max_eval
  | m :: rest, max_eval, alpha, p =>
    let ev := child alpha (p ++ [m])
    let max1 := max max_eval ev
    let alpha1 := max alpha max1
    if infMinusOne ≤ max1 then max1
    else if beta ≤ alpha1 then max1
    else pureMaxLoop beta child rest max1 alpha1 p

/-- Pure minimizing loop: minLoop without board and timeline threading. -/
def pureMinLoop (alpha : Score) (child : Score → Pos → Score) :
    List Move → Score → Score → Pos → Score
  | [], min_eval, _beta, _p => min_eval
  | m :: rest, min_eval, beta, p =>
    let ev := child beta (p ++ [m])
    let min1 := min min_eval ev
    let beta1 := min beta min1
    if beta1 ≤ alpha then min1
    else pureMinLoop alpha child rest min1 beta1 p

/-- Pure alpha-beta search: minimax under the never-expiring timeline, as a
function of the position alone. -/
def absearch (G : Game) : Nat → Score → Score → Bool → Pos → Score
  | 0, _alpha, _beta, _mx, p => evaluate_board G p
  | d + 1, alpha, beta, mx, p =>
    if G.is_game_over p then evaluate_board G p
    else
      let ms := orderedMoves G p
      if mx then
        pureMaxLoop beta (fun a q => absearch G d a beta false q) ms ⊥ alpha p
      else
        pureMinLoop alpha (fun b q => absearch G d alpha b true q) ms ⊤ beta p

/-- Unpruned full-width minimax over the same game tree with the same leaf
evaluator and the same move ordering: no alpha-beta window, no mate break,
every child of every node is scanned. -/
def plainMinimax (G : Game) : Nat → Bool → Pos → Score
  | 0, _mx, p => evaluate_board G p
  | d + 1, mx, p =>
    if G.is_game_over p then evaluate_board G p
    else
      let ms := orderedMoves G p
      if mx then
        (ms.map (fun m => plainMinimax G d false (p ++ [m]))).foldl max ⊥
      else
        (ms.map (fun m => plainMinimax G d true (p ++ [m]))).foldl min ⊤

/-- The score the root driver assigns to a root move: a full-window search
of the child position at depth - 1 with the maximizing flag False. -/
def rootScore (G : Game) (p : Pos) (depth : Nat) (m : Move) : Score :=
  absearch G (depth - 1) ⊥ ⊤ false (p ++ [m])

/-- Running maximum of the root scores over the ranked root moves. -/
def rootMax (G : Game) (p : Pos) (depth : Nat) : Score :=
  (orderedRootMoves G p).foldl (fun s m => max s (rootScore G p depth m)) ⊥

/-- Clamp a score into the window [a, b]. -/
def clampW (a b x : Score) : Score := max a (min b x)

/-- The same piece with its color swapped. -/
def swapPieceOpt (op : Option Piece) : Option Piece :=
  op.map (fun pc => Piece.mk pc.piece_type (!pc.color))

/-- Decidable check that two boards of one game are related by swapping the
color of every piece in place (same squares) and flipping the side to
move. -/
def colorSwapSameSquares (G : Game) (p q : Pos) : Bool :=
  ((List.range 64).all fun s =>
    decide (G.piece_at q s = swapPieceOpt (G.piece_at p s))) &&
    decide (G.turn q = !G.turn p)

/-!
Concrete instantiations of the rules oracle, used as explicit inputs for
witnesses and counterexamples.  Positions are keyed by their move stacks.
-/

/-- A move token from square 0 to square 16. -/
def mA : Move := Move.mk 0 16 none

/-- A move token from square 1 to square 17. -/
def mB : Move := Move.mk 1 17 none

/-- A move token from square 8 to square 24. -/
def mC : Move := Move.mk 8 24 none

/-- A small two-ply game: the root has moves mA and mB, each reply position
has the single move mC, and depth-two stacks are terminal.  After mA a white
pawn sits on square 16; after mB a black pawn sits there; the depth-two
leaves hold a white knight on 18 (after mA) or a black rook on 0 (after
mB). -/
def GA : Game where
  legal_moves := fun p =>
    match p with
    | [] => [mA, mB]
    | [_] => [mC]
    | _ => []
  is_game_over := fun p => decide (2 ≤ p.length)
  is_checkmate := fun _ => false
  is_stalemate := fun _ => false
  is_insufficient_material := fun _ => false
  turn := fun p => decide (p.length % 2 = 0)
  piece_at := fun p s =>
    match p, s with
    | [m1], 16 => if m1 = mA then some (Piece.mk 1 true) else some (Piece.mk 1 false)
    | [m1, _], 18 => if m1 = mA then some (Piece.mk 2 true) else none
    | [m1, _], 0 => if m1 = mB then some (Piece.mk 4 false) else none
    | _, _ => none
  gives_check := fun _ _ => false
  is_passed_pawn := none

/-- A one-ply game with black to move at the root: after mA a white pawn
sits on square 16 (evaluation +110), after mB a black pawn sits there
(evaluation -105).  The move best for the side to move (black) is mB. -/
def GB : Game where
  legal_moves := fun p =>
    match p with
    | [] => [mA, mB]
    | _ => []
  is_game_over := fun p => decide (1 ≤ p.length)
  is_checkmate := fun _ => false
  is_stalemate := fun _ => false
  is_insufficient_material := fun _ => false
  turn := fun p => decide (p.length % 2 = 1)
  piece_at := fun p s =>
    match p, s with
    | [m1], 16 => if m1 = mA then some (Piece.mk 1 true) else some (Piece.mk 1 false)
    | _, _ => none
  gives_check := fun _ _ => false
  is_passed_pawn := none

/-- A game whose root is over for a reason other than checkmate, stalemate
or insufficient material (as under the seventy-five-move rule), with a white
pawn on square 16, so the material-plus-positional sum is 110. -/
def GC : Game where
  legal_moves := fun _ => []
  is_game_over := fun _ => true
  is_checkmate := fun _ => false
  is_stalemate := fun _ => false
  is_insufficient_material := fun _ => false
  turn := fun _ => true
  piece_at := fun p s =>
    match p, s with
    | [], 16 => some (Piece.mk 1 true)
    | _, _ => none
  gives_check := fun _ _ => false
  is_passed_pawn := none

/-- A game of terminal positions: the empty stack is a checkmate with black
to move, the stack [mA] a stalemate, the stack [mB] a checkmate with white
to move. -/
def GD : Game where
  legal_moves := fun _ => []
  is_game_over := fun _ => true
  is_checkmate := fun p => decide (p = [] ∨ p = [mB])
  is_stalemate := fun p => decide (p = [mA])
  is_insufficient_material := fun _ => false
  turn := fun p => decide (p = [mB])
  piece_at := fun _ _ => none
  gives_check := fun _ _ => false
  is_passed_pawn := none

/-- Two non-terminal boards related by a same-square color swap: the empty
stack holds a white queen on 32, a white king on 4 and a black king on 60
with white to move; the stack [mA] holds the same squares with colors
swapped and black to move. -/
def G6 : Game where
  legal_moves := fun _ => []
  is_game_over := fun _ => true
  is_checkmate := fun _ => false
  is_stalemate := fun _ => false
  is_insufficient_material := fun _ => false
  turn := fun p => decide (p.length = 0)
  piece_at := fun p s =>
    match p, s with
    | [], 32 => some (Piece.mk 5 true)
    | [], 4 => some (Piece.mk 6 true)
    | [], 60 => some (Piece.mk 6 false)
    | [_], 32 => some (Piece.mk 5 false)
    | [_], 4 => some (Piece.mk 6 false)
    | [_], 60 => some (Piece.mk 6 true)
    | _, _ => none
  gives_check := fun _ _ => false
  is_passed_pawn := none

/-- Two boards related by color swap plus 180-degree rotation (piece on s
moves to 63 - s): the empty stack is as in G6; the stack [mA] holds a black
queen on 31, a black king on 59 and a white king on 3 with black to move. -/
def G6r : Game where
  legal_moves := fun _ => []
  is_game_over := fun _ => true
  is_checkmate := fun _ => false
  is_stalemate := fun _ => false
  is_insufficient_material := fun _ => false
  turn := fun p => decide (p.length = 0)
  piece_at := fun p s =>
    match p, s with
    | [], 32 => some (Piece.mk 5 true)
    | [], 4 => some (Piece.mk 6 true)
    | [], 60 => some (Piece.mk 6 false)
    | [_], 31 => some (Piece.mk 5 false)
    | [_], 59 => some (Piece.mk 6 false)
    | [_], 3 => some (Piece.mk 6 true)
    | _, _ => none
  gives_check := fun _ _ => false
  is_passed_pawn := none

instance : DecidableEq (Except Unit (Option Move)) :=
  fun a b =>
    match a, b with
    | Except.ok x, Except.ok y =>
      decidable_of_iff (x = y) (by simp)
    | Except.error x, Except.error y =>
      decidable_of_iff (x = y) (by simp)
    | Except.ok _, Except.error _ => isFalse (fun h => Except.noConfusion h)
    | Except.error _, Except.ok _ => isFalse (fun h => Except.noConfusion h)


theorem mem_insertDesc (key : Move → ℤ) (m a : Move) :
    ∀ l : List Move, a ∈ insertDesc key m l ↔ a = m ∨ a ∈ l := by
  intro l
  induction l with
  | nil => simp [insertDesc]
  | cons x xs ih =>
    simp only [insertDesc]
    split
    · simp
    · simp only [List.mem_cons, ih]
      tauto

theorem mem_sortDesc (key : Move → ℤ) (a : Move) :
    ∀ l : List Move, a ∈ sortDesc key l ↔ a ∈ l := by
  intro l
  induction l with
  | nil => simp [sortDesc]
  | cons x xs ih =>
    simp only [sortDesc, mem_insertDesc, ih, List.mem_cons]

/-!
Board restoration: every control-flow exit of every loop pops exactly what
it pushed, so each search call hands back the board it received.
-/

theorem dropLast_push (p : Pos) (m : Move) : (p ++ [m]).dropLast = p := by
  simp

theorem maxLoop_board (beta : Score)
    (child : Score → Pos → Nat → Score × Pos × Nat)
    (hc : ∀ a q u, (child a q u).2.1 = q) :
    ∀ (ms : List Move) (me alpha : Score) (p : Pos) (t : Nat),
      (maxLoop beta child ms me alpha p t).2.1 = p := by
  intro ms
  induction ms with
  | nil => intro me alpha p t; rfl
  | cons m rest ih =>
    intro me alpha p t
    simp only [maxLoop, hc, dropLast_push]
    split
    · rfl
    · split
      · rfl
      · exact ih _ _ _ _

theorem minLoop_board (alpha : Score)
    (child : Score → Pos → Nat → Score × Pos × Nat)
    (hc : ∀ b q u, (child b q u).2.1 = q) :
    ∀ (ms : List Move) (me beta : Score) (p : Pos) (t : Nat),
      (minLoop alpha child ms me beta p t).2.1 = p := by
  intro ms
  induction ms with
  | nil => intro me beta p t; rfl
  | cons m rest ih =>
    intro me beta p t
    simp only [minLoop, hc, dropLast_push]
    split
    · rfl
    · exact ih _ _ _ _

theorem minimax_board (G : Game) (tl : Nat → Bool) :
    ∀ (d : Nat) (alpha beta : Score) (mx : Bool) (p : Pos) (t : Nat),
      (minimax G tl d alpha beta mx p t).2.1 = p := by
  intro d
  induction d with
  | zero => intro alpha beta mx p t; rfl
  | succ d ih =>
    intro alpha beta mx p t
    simp only [minimax]
    split
    · rfl
    · split
      · exact maxLoop_board _ _ (fun a q u => ih a beta false q u) _ _ _ _ _
      · exact minLoop_board _ _ (fun b q u => ih alpha b true q u) _ _ _ _ _

theorem rootLoop_board (G : Game) (tl : Nat → Bool) (depth : Nat) :
    ∀ (ms : List Move) (best : Option Move) (me : Score) (p : Pos) (t : Nat),
      (rootLoop G tl depth ms best me p t).2.2.1 = p := by
  intro ms
  induction ms with
  | nil => intro best me p t; rfl
  | cons m rest ih =>
    intro best me p t
    simp only [rootLoop, minimax_board, dropLast_push]
    split
    · rfl
    · split
      · exact ih _ _ _ _
      · exact ih _ _ _ _

theorem searchPhase_board (G : Game) (tl : Nat → Bool) (p : Pos) (d : Nat) :
    (searchPhase G tl p d).2 = p := by
  simp only [searchPhase]
  exact rootLoop_board G tl d _ _ _ _ _

theorem get_ai_move_board (G : Game) (tl : Nat → Bool) (ba : Bool)
    (book : BookOutcome) (p : Pos) (d : Nat) :
    (get_ai_move G tl ba book p d).2 = p := by
  simp only [get_ai_move]
  split
  · cases book with
    | entry m => rfl
    | indexError => exact searchPhase_board G tl p d
    | otherError => rfl
  · exact searchPhase_board G tl p d

/-!
Under the never-expiring timeline, the threaded search computes the same
score as its pure counterpart.
-/

theorem maxLoop_fst (beta : Score)
    (child : Score → Pos → Nat → Score × Pos × Nat)
    (pchild : Score → Pos → Score)
    (hc1 : ∀ a q u, (child a q u).1 = pchild a q)
    (hc2 : ∀ a q u, (child a q u).2.1 = q) :
    ∀ (ms : List Move) (me alpha : Score) (p : Pos) (t : Nat),
      (maxLoop beta child ms me alpha p t).1 =
        pureMaxLoop beta pchild ms me alpha p := by
  intro ms
  induction ms with
  | nil => intro me alpha p t; rfl
  | cons m rest ih =>
    intro me alpha p t
    simp only [maxLoop, pureMaxLoop, hc1, hc2, dropLast_push]
    split
    · rfl
    · split
      · rfl
      · exact ih _ _ _ _

theorem minLoop_fst (alpha : Score)
    (child : Score → Pos → Nat → Score × Pos × Nat)
    (pchild : Score → Pos → Score)
    (hc1 : ∀ b q u, (child b q u).1 = pchild b q)
    (hc2 : ∀ b q u, (child b q u).2.1 = q) :
    ∀ (ms : List Move) (me beta : Score) (p : Pos) (t : Nat),
      (minLoop alpha child ms me beta p t).1 =
        pureMinLoop alpha pchild ms me beta p := by
  intro ms
  induction ms with
  | nil => intro me beta p t; rfl
  | cons m rest ih =>
    intro me beta p t
    simp only [minLoop, pureMinLoop, hc1, hc2, dropLast_push]
    split
    · rfl
    · exact ih _ _ _ _

/-!
Window-clamp algebra.  The value of a fail-soft alpha-beta node agrees with
the full-width minimax value once both are clamped into the node window;
at the full window the clamp is the identity, giving the equivalence.
-/

/-- Clamp a score into the window [a, b]. -/

theorem clampW_mono (a b : Score) : Monotone (clampW a b) :=
  fun _x _y h => max_le_max le_rfl (min_le_min le_rfl h)

theorem clampW_max (a b x y : Score) :
    clampW a b (max x y) = max (clampW a b x) (clampW a b y) :=
  (clampW_mono a b).map_max

theorem clampW_min (a b x y : Score) :
    clampW a b (min x y) = min (clampW a b x) (clampW a b y) :=
  (clampW_mono a b).map_min

theorem clampW_of_ge (a b x : Score) (hab : a ≤ b) (hx : b ≤ x) :
    clampW a b x = b := by
  rw [clampW, min_eq_left hx, max_eq_right hab]

theorem clampW_of_le (a b x : Score) (hx : x ≤ a) : clampW a b x = a :=
  max_eq_left (le_trans (min_le_right _ _) hx)

theorem le_foldl_max (w : Move → Score) :
    ∀ (l : List Move) (x : Score),
      x ≤ l.foldl (fun s m => max s (w m)) x := by
  intro l
  induction l with
  | nil => intro x; exact le_rfl
  | cons m rest ih =>
    intro x
    exact le_trans (le_max_left x (w m)) (ih (max x (w m)))

theorem foldl_min_le (w : Move → Score) :
    ∀ (l : List Move) (x : Score),
      l.foldl (fun s m => min s (w m)) x ≤ x := by
  intro l
  induction l with
  | nil => intro x; exact le_rfl
  | cons m rest ih =>
    intro x
    exact le_trans (ih (min x (w m))) (min_le_left x (w m))

theorem foldl_max_clamp_congr (a b : Score) (w : Move → Score) :
    ∀ (l : List Move) (x y : Score), clampW a b x = clampW a b y →
      clampW a b (l.foldl (fun s m => max s (w m)) x) =
      clampW a b (l.foldl (fun s m => max s (w m)) y) := by
  intro l
  induction l with
  | nil => intro x y h; exact h
  | cons m rest ih =>
    intro x y h
    exact ih _ _ (by rw [clampW_max, clampW_max, h])

theorem foldl_min_clamp_congr (a b : Score) (w : Move → Score) :
    ∀ (l : List Move) (x y : Score), clampW a b x = clampW a b y →
      clampW a b (l.foldl (fun s m => min s (w m)) x) =
      clampW a b (l.foldl (fun s m => min s (w m)) y) := by
  intro l
  induction l with
  | nil => intro x y h; exact h
  | cons m rest ih =>
    intro x y h
    exact ih _ _ (by rw [clampW_min, clampW_min, h])

theorem max_shift (a c e : Score) : max (max a c) (max c e) = max a (max c e) := by
  rw [max_assoc a c (max c e), ← max_assoc c c e, max_self]

theorem min_shift (b c e : Score) : min (min b c) (min c e) = min b (min c e) := by
  rw [min_assoc b c (min c e), ← min_assoc c c e, min_self]

/-- Shared argument for both early exits of the maximizing loop (the mate
break and the pruning break): once some child score reached beta, the node
value and the full-width value clamp to beta. -/
theorem maxBreak_aux (alpha0 beta acc ev wv : Score) (w : Move → Score)
    (rest : List Move) (hab : alpha0 < beta) (hacc : acc < beta)
    (hev : beta ≤ ev)
    (hm : max (max alpha0 acc) (min beta ev) = max (max alpha0 acc) (min beta wv)) :
    clampW alpha0 beta (max acc ev) =
      clampW alpha0 beta
        (rest.foldl (fun s m => max s (w m)) (max acc wv)) := by
  have hA : max alpha0 acc < beta := max_lt hab hacc
  have h1 : clampW alpha0 beta (max acc ev) = beta :=
    clampW_of_ge _ _ _ hab.le (le_trans hev (le_max_right acc ev))
  have h2 : min beta ev = beta := min_eq_left hev
  rw [h2, max_eq_right hA.le] at hm
  have h3 : min beta wv = beta := by
    rcases max_choice (max alpha0 acc) (min beta wv) with h | h
    · rw [h] at hm; exact absurd hm (ne_of_gt hA)
    · rw [h] at hm; exact hm.symm
  have h4 : beta ≤ wv := min_eq_left_iff.mp h3
  have h5 : beta ≤ rest.foldl (fun s m => max s (w m)) (max acc wv) :=
    le_trans (le_trans h4 (le_max_right acc wv)) (le_foldl_max w rest _)
  rw [h1, clampW_of_ge _ _ _ hab.le h5]

/-- Clamped correctness of the maximizing loop: scanning the moves with
running maximum, alpha raising, mate break and pruning break computes, up
to clamping into the node window, the plain running maximum of the
full-width child values. -/
theorem pureMaxLoop_clamp (beta alpha0 : Score) (p : Pos)
    (child : Score → Pos → Score) (w : Move → Score) (hab : alpha0 < beta) :
    ∀ (ms : List Move),
      (∀ m ∈ ms, ∀ a : Score, a < beta →
        clampW a beta (child a (p ++ [m])) = clampW a beta (w m)) →
      ∀ acc : Score, acc < beta →
        clampW alpha0 beta (pureMaxLoop beta child ms acc (max alpha0 acc) p) =
        clampW alpha0 beta (ms.foldl (fun s m => max s (w m)) acc) := by
  intro ms
  induction ms with
  | nil => intro _ acc _; rfl
  | cons m rest ih =>
    intro hch acc hacc
    have hA : max alpha0 acc < beta := max_lt hab hacc
    have hm : clampW (max alpha0 acc) beta (child (max alpha0 acc) (p ++ [m])) =
        clampW (max alpha0 acc) beta (w m) :=
      hch m (List.mem_cons_self m rest) (max alpha0 acc) hA
    rw [clampW, clampW] at hm
    simp only [pureMaxLoop, List.foldl_cons]
    set ev := child (max alpha0 acc) (p ++ [m]) with hev
    by_cases h1 : infMinusOne ≤ max acc ev
    · rw [if_pos h1]
      have htop : max acc ev = ⊤ := top_le_iff.mp h1
      have hevtop : ev = ⊤ := by
        rcases max_choice acc ev with h | h
        · rw [h] at htop
          exact absurd htop (ne_of_lt (lt_of_lt_of_le hacc le_top))
        · rw [h] at htop; exact htop
      exact maxBreak_aux alpha0 beta acc ev (w m) w rest hab hacc
        (hevtop ▸ le_top) hm
    · rw [if_neg h1]
      by_cases h2 : beta ≤ max (max alpha0 acc) (max acc ev)
      · rw [if_pos h2]
        have hbm : beta ≤ max acc ev := by
          rcases le_max_iff.mp h2 with h | h
          · exact absurd h (not_le_of_lt hA)
          · exact h
        have hbe : beta ≤ ev := by
          rcases le_max_iff.mp hbm with h | h
          · exact absurd h (not_le_of_lt hacc)
          · exact h
        exact maxBreak_aux alpha0 beta acc ev (w m) w rest hab hacc hbe hm
      · rw [if_neg h2]
        rw [max_shift alpha0 acc ev] at h2
        have hacc1 : max acc ev < beta :=
          lt_of_le_of_lt (le_max_right alpha0 (max acc ev)) (not_le.mp h2)
        have hrest : ∀ m' ∈ rest, ∀ a : Score, a < beta →
            clampW a beta (child a (p ++ [m'])) = clampW a beta (w m') :=
          fun m' hm' => hch m' (List.mem_cons_of_mem m hm')
        have := ih hrest (max acc ev) hacc1
        rw [max_shift alpha0 acc ev]
        rw [this]
        apply foldl_max_clamp_congr
        rw [clampW_max, clampW_max]
        have hca : clampW alpha0 beta acc = max alpha0 acc := by
          rw [clampW, min_eq_right hacc.le]
        rw [hca]
        have key : ∀ x : Score, max (max alpha0 acc) (clampW alpha0 beta x) =
            max (max alpha0 acc) (min beta x) := by
          intro x
          rw [clampW, ← max_assoc]
          congr 1
          rw [max_comm (max alpha0 acc) alpha0, ← max_assoc, max_self]
        rw [key ev, key (w m), hm]

theorem clampW_comm (a b x : Score) (h : a ≤ b) :
    clampW a b x = min b (max a x) := by
  rw [clampW, min_max_distrib_left, min_eq_right h]

theorem min_absorb (b c : Score) : min (min b c) b = min b c := by
  rw [min_comm (min b c) b, ← min_assoc, min_self]

/-- Shared argument for the pruning break of the minimizing loop: once some
child score fell to alpha, the node value and the full-width value clamp to
alpha. -/
theorem minBreak_aux (alpha0 beta acc ev wv : Score) (w : Move → Score)
    (rest : List Move) (hab : alpha0 < beta) (hacc : alpha0 < acc)
    (hev : ev ≤ alpha0)
    (hm : max alpha0 (min (min beta acc) ev) =
      max alpha0 (min (min beta acc) wv)) :
    clampW alpha0 beta (min acc ev) =
      clampW alpha0 beta
        (rest.foldl (fun s m => min s (w m)) (min acc wv)) := by
  have hB : alpha0 < min beta acc := lt_min hab hacc
  have h1 : clampW alpha0 beta (min acc ev) = alpha0 :=
    clampW_of_le _ _ _ (le_trans (min_le_right acc ev) hev)
  have h2 : max alpha0 (min (min beta acc) ev) = alpha0 :=
    max_eq_left (le_trans (min_le_right _ _) hev)
  rw [h2] at hm
  have h3 : min (min beta acc) wv ≤ alpha0 := max_eq_left_iff.mp hm.symm
  have h4 : wv ≤ alpha0 := by
    rcases min_le_iff.mp h3 with h | h
    · exact absurd h (not_le_of_lt hB)
    · exact h
  have h5 : rest.foldl (fun s m => min s (w m)) (min acc wv) ≤ alpha0 :=
    le_trans (foldl_min_le w rest _) (le_trans (min_le_right acc wv) h4)
  rw [h1, clampW_of_le _ _ _ h5]

/-- Clamped correctness of the minimizing loop: symmetric to the maximizing
loop, with no mate break. -/
theorem pureMinLoop_clamp (alpha0 beta : Score) (p : Pos)
    (child : Score → Pos → Score) (w : Move → Score) (hab : alpha0 < beta) :
    ∀ (ms : List Move),
      (∀ m ∈ ms, ∀ b : Score, alpha0 < b →
        clampW alpha0 b (child b (p ++ [m])) = clampW alpha0 b (w m)) →
      ∀ acc : Score, alpha0 < acc →
        clampW alpha0 beta (pureMinLoop alpha0 child ms acc (min beta acc) p) =
        clampW alpha0 beta (ms.foldl (fun s m => min s (w m)) acc) := by
  intro ms
  induction ms with
  | nil => intro _ acc _; rfl
  | cons m rest ih =>
    intro hch acc hacc
    have hB : alpha0 < min beta acc := lt_min hab hacc
    have hm : clampW alpha0 (min beta acc) (child (min beta acc) (p ++ [m])) =
        clampW alpha0 (min beta acc) (w m) :=
      hch m (List.mem_cons_self m rest) (min beta acc) hB
    rw [clampW, clampW] at hm
    simp only [pureMinLoop, List.foldl_cons]
    set ev := child (min beta acc) (p ++ [m]) with hev
    by_cases h1 : min (min beta acc) (min acc ev) ≤ alpha0
    · rw [if_pos h1]
      have h1b : min beta (min acc ev) ≤ alpha0 := by
        rw [← min_shift beta acc ev]; exact h1
      have hle : min acc ev ≤ alpha0 := by
        rcases min_le_iff.mp h1b with h | h
        · exact absurd h (not_le_of_lt hab)
        · exact h
      have hevle : ev ≤ alpha0 := by
        rcases min_le_iff.mp hle with h | h
        · exact absurd h (not_le_of_lt hacc)
        · exact h
      exact minBreak_aux alpha0 beta acc ev (w m) w rest hab hacc hevle hm
    · rw [if_neg h1]
      rw [min_shift beta acc ev] at h1
      have hacc1 : alpha0 < min acc ev :=
        lt_of_lt_of_le (not_le.mp h1) (min_le_right beta (min acc ev))
      have hrest : ∀ m' ∈ rest, ∀ b : Score, alpha0 < b →
          clampW alpha0 b (child b (p ++ [m'])) = clampW alpha0 b (w m') :=
        fun m' hm' => hch m' (List.mem_cons_of_mem m hm')
      have := ih hrest (min acc ev) hacc1
      rw [min_shift beta acc ev]
      rw [this]
      apply foldl_min_clamp_congr
      rw [clampW_min, clampW_min]
      have hca : clampW alpha0 beta acc = min beta acc := by
        rw [clampW_comm _ _ _ hab.le, max_eq_right hacc.le]
      rw [hca]
      have key : ∀ x : Score, min (min beta acc) (clampW alpha0 beta x) =
          min (min beta acc) (max alpha0 x) := by
        intro x
        rw [clampW_comm _ _ _ hab.le, ← min_assoc, min_absorb]
      have hm2 : min (min beta acc) (max alpha0 ev) =
          min (min beta acc) (max alpha0 (w m)) := by
        have e1 : max alpha0 (min (min beta acc) ev) =
            min (min beta acc) (max alpha0 ev) := by
          rw [← clampW, clampW_comm _ _ _ hB.le]
        have e2 : max alpha0 (min (min beta acc) (w m)) =
            min (min beta acc) (max alpha0 (w m)) := by
          rw [← clampW, clampW_comm _ _ _ hB.le]
        rw [← e1, ← e2, hm]
      rw [key ev, key (w m), hm2]

/-- The central pruning-correctness fact: clamped into its window, a
fail-soft alpha-beta node computes the full-width minimax value. -/
theorem absearch_clamp (G : Game) :
    ∀ (d : Nat) (alpha beta : Score) (mx : Bool) (p : Pos), alpha < beta →
      clampW alpha beta (absearch G d alpha beta mx p) =
      clampW alpha beta (plainMinimax G d mx p) := by
  intro d
  induction d with
  | zero => intro alpha beta mx p _; rfl
  | succ d ih =>
    intro alpha beta mx p hab
    simp only [absearch, plainMinimax]
    split
    · rfl
    · cases mx with
      | true =>
        simp only [if_true, List.foldl_map]
        have hch : ∀ m ∈ orderedMoves G p, ∀ a : Score, a < beta →
            clampW a beta (absearch G d a beta false (p ++ [m])) =
            clampW a beta (plainMinimax G d false (p ++ [m])) :=
          fun m _ a ha => ih a beta false (p ++ [m]) ha
        have h0 : (⊥ : Score) < beta := lt_of_le_of_lt bot_le hab
        have := pureMaxLoop_clamp beta alpha p
          (fun a q => absearch G d a beta false q)
          (fun m => plainMinimax G d false (p ++ [m])) hab
          (orderedMoves G p) hch ⊥ h0
        rw [max_eq_left bot_le] at this
        exact this
      | false =>
        simp only [if_false, Bool.false_eq_true, List.foldl_map]
        have hch : ∀ m ∈ orderedMoves G p, ∀ b : Score, alpha < b →
            clampW alpha b (absearch G d alpha b true (p ++ [m])) =
            clampW alpha b (plainMinimax G d true (p ++ [m])) :=
          fun m _ b hb => ih alpha b true (p ++ [m]) hb
        have h0 : alpha < (⊤ : Score) := lt_of_lt_of_le hab le_top
        have := pureMinLoop_clamp alpha beta p
          (fun b q => absearch G d alpha b true q)
          (fun m => plainMinimax G d true (p ++ [m])) hab
          (orderedMoves G p) hch ⊤ h0
        rw [min_eq_left le_top] at this
        exact this

/-- At the full window the clamp is the identity: pure alpha-beta equals
full-width minimax. -/
theorem absearch_full (G : Game) (d : Nat) (mx : Bool) (p : Pos) :
    absearch G d ⊥ ⊤ mx p = plainMinimax G d mx p := by
  have h := absearch_clamp G d ⊥ ⊤ mx p (by decide)
  rw [clampW, clampW, min_eq_right le_top, min_eq_right le_top,
    max_eq_right bot_le, max_eq_right bot_le] at h
  exact h

theorem minimax_fst (G : Game) :
    ∀ (d : Nat) (alpha beta : Score) (mx : Bool) (p : Pos) (t : Nat),
      (minimax G tlNever d alpha beta mx p t).1 = absearch G d alpha beta mx p := by
  intro d
  induction d with
  | zero => intro alpha beta mx p t; rfl
  | succ d ih =>
    intro alpha beta mx p t
    simp only [minimax, absearch, tlNever, Bool.false_or]
    split
    · rfl
    · split
      · exact maxLoop_fst beta _ _ (fun a q u => ih a beta false q u)
          (fun a q u => minimax_board G tlNever d a beta false q u) _ _ _ _ _
      · exact minLoop_fst alpha _ _ (fun b q u => ih alpha b true q u)
          (fun b q u => minimax_board G tlNever d alpha b true q u) _ _ _ _ _


/-!
Root driver lemmas: any move the root loop reports came from its move list,
and under the never-expiring timeline the loop returns the first move whose
full-window score attains the running maximum, or the incoming best move
when no score strictly improves on the incoming accumulator.
-/

theorem rootLoop_mem (G : Game) (tl : Nat → Bool) (depth : Nat) :
    ∀ (ms : List Move) (best : Option Move) (me : Score) (p : Pos) (t : Nat)
      (m : Move), (rootLoop G tl depth ms best me p t).1 = some m →
        best = some m ∨ m ∈ ms := by
  intro ms
  induction ms with
  | nil => intro best me p t m h; exact Or.inl h
  | cons x rest ih =>
    intro best me p t m h
    simp only [rootLoop] at h
    split at h
    · exact Or.inl h
    · split at h
      · rcases ih _ _ _ _ _ h with h2 | h2
        · injection h2 with h3
          exact Or.inr (h3 ▸ List.mem_cons_self x rest)
        · exact Or.inr (List.mem_cons_of_mem x h2)
      · rcases ih _ _ _ _ _ h with h2 | h2
        · exact Or.inl h2
        · exact Or.inr (List.mem_cons_of_mem x h2)

theorem rootLoop_argmax (G : Game) (p : Pos) (depth : Nat) :
    ∀ (ms : List Move) (best : Option Move) (acc : Score) (t : Nat),
      (acc < ms.foldl (fun s m => max s (rootScore G p depth m)) acc →
        ∃ m, m ∈ ms ∧ (rootLoop G tlNever depth ms best acc p t).1 = some m ∧
          rootScore G p depth m =
            ms.foldl (fun s m2 => max s (rootScore G p depth m2)) acc) ∧
      (¬ acc < ms.foldl (fun s m => max s (rootScore G p depth m)) acc →
        (rootLoop G tlNever depth ms best acc p t).1 = best) := by
  intro ms
  induction ms with
  | nil =>
    intro best acc t
    exact ⟨fun h => absurd h (lt_irrefl acc), fun _ => rfl⟩
  | cons m rest ih =>
    intro best acc t
    have hr1 : (minimax G tlNever (depth - 1) ⊥ ⊤ false (p ++ [m]) (t + 1)).1 =
        rootScore G p depth m := minimax_fst G _ _ _ _ _ _
    have hr2 : (minimax G tlNever (depth - 1) ⊥ ⊤ false (p ++ [m]) (t + 1)).2.1 =
        p ++ [m] := minimax_board G tlNever _ _ _ _ _ _
    simp only [rootLoop, tlNever, Bool.false_eq_true, if_false, hr1, hr2,
      dropLast_push, List.foldl_cons]
    by_cases hlt : acc < rootScore G p depth m
    · rw [if_pos hlt, max_eq_right hlt.le]
      have hF : rootScore G p depth m ≤
          rest.foldl (fun s m2 => max s (rootScore G p depth m2))
            (rootScore G p depth m) := le_foldl_max _ rest _
      constructor
      · intro _
        by_cases hlt2 : rootScore G p depth m <
            rest.foldl (fun s m2 => max s (rootScore G p depth m2))
              (rootScore G p depth m)
        · obtain ⟨m3, hm3, hres, hsc⟩ := (ih (some m) (rootScore G p depth m) _).1 hlt2
          exact ⟨m3, List.mem_cons_of_mem m hm3, hres, hsc⟩
        · have heq : rest.foldl (fun s m2 => max s (rootScore G p depth m2))
              (rootScore G p depth m) = rootScore G p depth m :=
            le_antisymm (not_lt.mp hlt2) hF
          refine ⟨m, List.mem_cons_self m rest, ?_, ?_⟩
          · exact (ih (some m) (rootScore G p depth m) _).2
              (by rw [heq]; exact lt_irrefl _)
          · rw [heq]
      · intro h
        exact absurd (lt_of_lt_of_le hlt hF) h
    · rw [if_neg hlt, max_eq_left (not_lt.mp hlt)]
      constructor
      · intro h
        obtain ⟨m3, hm3, hres, hsc⟩ := (ih best acc _).1 h
        exact ⟨m3, List.mem_cons_of_mem m hm3, hres, hsc⟩
      · intro h
        exact (ih best acc _).2 h

/-!
Color symmetry of the evaluator.  Swapping the color of an optional piece,
and the pointwise effect of a color swap combined with the 180-degree board
rotation (square s to square 63 - s) that matches the PST mirroring index
63 - square used for black pieces.
-/


theorem get_piece_value_swap (op : Option Piece) :
    get_piece_value (swapPieceOpt op) = -get_piece_value op := by
  cases op with
  | none => simp [swapPieceOpt, get_piece_value]
  | some pc =>
    cases hc : pc.color <;> simp [swapPieceOpt, get_piece_value, hc]

theorem get_pst_value_swap (op : Option Piece) (s : Nat) (hs : s < 64) :
    get_pst_value (swapPieceOpt op) s = -get_pst_value op (63 - s) := by
  cases op with
  | none => simp [swapPieceOpt, get_pst_value]
  | some pc =>
    have h63 : 63 - (63 - s) = s := by omega
    cases hpst : PST pc.piece_type with
    | none => cases hc : pc.color <;>
        simp [swapPieceOpt, get_pst_value, hpst, hc]
    | some pst => cases hc : pc.color <;>
        simp [swapPieceOpt, get_pst_value, hpst, hc, h63]

theorem boardSum_swap (G : Game) (p q : Pos)
    (hpieces : ∀ s, s < 64 → G.piece_at q s = swapPieceOpt (G.piece_at p (63 - s))) :
    boardSum G q = -boardSum G p := by
  unfold boardSum
  have step1 : ∀ s ∈ Finset.range 64,
      get_piece_value (G.piece_at q s) + get_pst_value (G.piece_at q s) s =
      -(get_piece_value (G.piece_at p (63 - s)) +
        get_pst_value (G.piece_at p (63 - s)) (63 - s)) := by
    intro s hs
    have hs64 : s < 64 := Finset.mem_range.mp hs
    rw [hpieces s hs64, get_piece_value_swap, get_pst_value_swap _ _ hs64]
    ring
  rw [Finset.sum_congr rfl step1]
  have step2 : ∑ s ∈ Finset.range 64,
      -(get_piece_value (G.piece_at p (63 - s)) +
        get_pst_value (G.piece_at p (63 - s)) (63 - s)) =
      -∑ s ∈ Finset.range 64,
        (get_piece_value (G.piece_at p (63 - s)) +
          get_pst_value (G.piece_at p (63 - s)) (63 - s)) := by
    rw [Finset.sum_neg_distrib]
  rw [step2]
  congr 1
  have := Finset.sum_range_reflect
    (fun s => get_piece_value (G.piece_at p s) + get_pst_value (G.piece_at p s) s) 64
  simpa using this

theorem scoreNeg_top : scoreNeg (⊤ : Score) = ⊥ := rfl

theorem scoreNeg_bot : scoreNeg (⊥ : Score) = ⊤ := rfl

theorem scoreNeg_fin (n : ℤ) : scoreNeg (finScore n) = finScore (-n) := rfl


/-!
Claim theorems.  Each claim of the specification receives one theorem (with
counterexample and amendment where the source diverges from the claim).
-/

/-- Claim C3: evaluate_board on a checkmated position returns the mate
sentinel signed in favor of the side not to move (top, the white-favoring
sentinel, when black is to move and has been mated; bottom when white is to
move), and on a stalemate or insufficient-material position returns exactly
0.  The checkmate branch is tested first in the source, and in chess a
checkmate position is never also a stalemate or insufficient-material
position, so the second part carries the corresponding hypothesis. -/
theorem claim_C3_mate_and_draw_scores (G : Game) (p : Pos) :
    (G.is_checkmate p = true →
      evaluate_board G p =
        (if G.turn p = false then (⊤ : Score) else (⊥ : Score))) ∧
    (G.is_checkmate p = false →
      (G.is_stalemate p = true ∨ G.is_insufficient_material p = true) →
      evaluate_board G p = finScore 0) := by
  constructor
  · intro h
    simp [evaluate_board, h]
  · intro h1 h2
    rcases h2 with h2 | h2 <;> simp [evaluate_board, h1, h2]

/-- Witness for claim C3 at the concrete game GD: the empty stack is a
checkmate with black to move and scores top; the stack [mA] is a stalemate
and scores exactly 0. -/
theorem claim_C3_witness :
    GD.is_checkmate [] = true ∧ evaluate_board GD [] = (⊤ : Score) ∧
    GD.is_checkmate [mA] = false ∧ GD.is_stalemate [mA] = true ∧
    evaluate_board GD [mA] = finScore 0 := by
  refine ⟨by decide, ?_, by decide, by decide, ?_⟩
  · have h := (claim_C3_mate_and_draw_scores GD []).1 (by decide)
    rw [h]; decide
  · exact (claim_C3_mate_and_draw_scores GD [mA]).2 (by decide)
      (Or.inl (by decide))

/-- Claim C4: for every position and every depth from 1 to 5, with the
never-expiring time budget, the score of the alpha-beta search called with
the full window (bottom, top) equals the score of the unpruned full-width
minimax over the same game tree with the same leaf evaluator: the pruning
cutoffs and the maximizing-side mate break do not change the root value. -/
theorem claim_C4_pruning_correct (G : Game) (d : Nat) (mx : Bool) (p : Pos)
    (t : Nat) (_h1 : 1 ≤ d) (_h5 : d ≤ 5) :
    (minimax G tlNever d ⊥ ⊤ mx p t).1 = plainMinimax G d mx p := by
  rw [minimax_fst, absearch_full]

/-- Witness for claim C4 at the concrete game GA at depth 2. -/
theorem claim_C4_witness :
    (1 ≤ 2 ∧ 2 ≤ 5) ∧
    (minimax GA tlNever 2 ⊥ ⊤ true [] 0).1 = plainMinimax GA 2 true [] :=
  ⟨⟨by decide, by decide⟩, claim_C4_pruning_correct GA 2 true [] 0 (by decide) (by decide)⟩

/-- Claim C5: for every position, depth, window and deadline, after a call
to the recursive search or to the root driver returns, the caller board is
unchanged in value: every applied move is undone on every control-flow
exit, including the early mate break, the pruning break, and timeout
returns. -/
theorem claim_C5_board_restored (G : Game) (tl : Nat → Bool) (d : Nat)
    (alpha beta : Score) (mx : Bool) (p : Pos) (t : Nat) (ba : Bool)
    (book : BookOutcome) (dep : Nat) :
    (minimax G tl d alpha beta mx p t).2.1 = p ∧
    (get_ai_move G tl ba book p dep).2 = p :=
  ⟨minimax_board G tl d alpha beta mx p t, get_ai_move_board G tl ba book p dep⟩

/-- Claim C10: a position that is over for a reason other than checkmate,
stalemate or insufficient material (such as the seventy-five-move rule) is
a base case of the search for every depth and timeline, and evaluate_board
scores it as the material-plus-positional sum, not as the draw score 0. -/
theorem claim_C10_other_game_over (G : Game) (tl : Nat → Bool) (d : Nat)
    (alpha beta : Score) (mx : Bool) (p : Pos) (t : Nat)
    (hgo : G.is_game_over p = true) (hcm : G.is_checkmate p = false)
    (hsm : G.is_stalemate p = false)
    (him : G.is_insufficient_material p = false) :
    (minimax G tl d alpha beta mx p t).1 = evaluate_board G p ∧
    evaluate_board G p = finScore (boardSum G p) := by
  constructor
  · cases d with
    | zero => rfl
    | succ d2 => simp [minimax, hgo]
  · simp [evaluate_board, hcm, hsm, him]

/-- Witness for claim C10 at the concrete game GC: the root is game over
without checkmate, stalemate or insufficient material, and scores as its
material-plus-positional sum 110 rather than 0. -/
theorem claim_C10_witness :
    (GC.is_game_over [] = true ∧ GC.is_checkmate [] = false ∧
      GC.is_stalemate [] = false ∧ GC.is_insufficient_material [] = false ∧
      boardSum GC [] = 110) ∧
    (minimax GC tlNever 3 ⊥ ⊤ true [] 0).1 = evaluate_board GC [] ∧
    evaluate_board GC [] = finScore (boardSum GC []) :=
  ⟨by decide, claim_C10_other_game_over GC tlNever 3 ⊥ ⊤ true [] 0 rfl rfl rfl rfl⟩

/-- Counterexample to claim C1 as stated: in the concrete game GB black is
to move at the root, yet get_ai_move returns mA, the move after which the
white-perspective evaluation is strictly larger, while mB is strictly
better for the side to move; the root driver does not search on behalf of
the side to move. -/
theorem claim_C1_counterexample :
    GB.turn [] = false ∧
    (get_ai_move GB tlNever false BookOutcome.indexError [] 1).1 =
      Except.ok (some mA) ∧
    evaluate_board GB [mB] < evaluate_board GB [mA] := by
  decide

/-- Claim C1 as amended: for every non-terminal position and depth at least
1, on the search path with an ample budget the root driver applies each
ranked root move, calls the recursive search at depth - 1 with the
maximizing flag False, and records a move exactly when its score strictly
improves on the best so far; whenever some root score exceeds the initial
minus-infinity accumulator it returns a legal root move whose full-window
score attains the maximum of the white-perspective root scores - the move
best for white, regardless of the side to move at the root. -/
theorem claim_C1_root_maximizes_white (G : Game) (p : Pos) (d : Nat)
    (_hd : 1 ≤ d) (_hterm : G.is_game_over p = false)
    (hbest : (⊥ : Score) < rootMax G p d) :
    ∃ m, (get_ai_move G tlNever false BookOutcome.indexError p d).1 =
        Except.ok (some m) ∧ m ∈ G.legal_moves p ∧
      rootScore G p d m = rootMax G p d ∧
      rootScore G p d m = plainMinimax G (d - 1) false (p ++ [m]) := by
  have hga : get_ai_move G tlNever false BookOutcome.indexError p d =
      searchPhase G tlNever p d := by
    simp [get_ai_move]
  obtain ⟨m, hmem, hres, hsc⟩ :=
    (rootLoop_argmax G p d (orderedRootMoves G p) none ⊥ 0).1 hbest
  refine ⟨m, ?_, ?_, ?_, ?_⟩
  · rw [hga]
    simp only [searchPhase]
    rw [hres]
  · exact (mem_sortDesc _ _ _).mp hmem
  · exact hsc
  · rw [rootScore, absearch_full]

/-- Witness for amended claim C1 at the concrete game GA at depth 1. -/
theorem claim_C1_witness :
    (1 ≤ 1 ∧ GA.is_game_over [] = false ∧ (⊥ : Score) < rootMax GA [] 1) ∧
    ∃ m, (get_ai_move GA tlNever false BookOutcome.indexError [] 1).1 =
        Except.ok (some m) ∧ m ∈ GA.legal_moves [] ∧
      rootScore GA [] 1 m = rootMax GA [] 1 ∧
      rootScore GA [] 1 m = plainMinimax GA (1 - 1) false ([] ++ [m]) :=
  ⟨⟨by decide, by decide, by decide⟩,
    claim_C1_root_maximizes_white GA [] 1 (by decide) (by decide) (by decide)⟩

/-- Counterexample to claim C2 as stated: in the concrete game GA the root
has the two legal moves mA and mB and is not terminal, yet with an expired
time budget get_ai_move returns no move at all instead of the top-ranked
root move. -/
theorem claim_C2_counterexample :
    GA.legal_moves [] = [mA, mB] ∧ GA.is_game_over [] = false ∧
    (get_ai_move GA tlAlways false BookOutcome.indexError [] 1).1 =
      Except.ok none := by
  decide

/-- Claim C2 as amended: when the time budget has expired before the first
root move is scored, get_ai_move on the search path returns absence (None);
there is no fallback to the highest-ranked root move, so the caller can
receive no move even though legal moves exist. -/
theorem claim_C2_no_fallback (G : Game) (tl : Nat → Bool) (book : BookOutcome)
    (p : Pos) (d : Nat) (h0 : tl 0 = true) :
    (get_ai_move G tl false book p d).1 = Except.ok none := by
  have hga : get_ai_move G tl false book p d = searchPhase G tl p d := by
    simp [get_ai_move]
  rw [hga]
  simp only [searchPhase]
  cases orderedRootMoves G p with
  | nil => rfl
  | cons m rest => simp [rootLoop, h0]

/-- Witness for amended claim C2 at the concrete game GA under the expired
timeline. -/
theorem claim_C2_witness :
    tlAlways 0 = true ∧
    (get_ai_move GA tlAlways false BookOutcome.otherError [] 2).1 =
      Except.ok none :=
  ⟨rfl, claim_C2_no_fallback GA tlAlways BookOutcome.otherError [] 2 rfl⟩

/-- Counterexample to claim C6 as stated: the two non-terminal boards of
the concrete game G6 are related by swapping every piece color in place
(same squares) and flipping the side to move, yet the evaluations are not
negations of each other (the black queen PST index 63 - s makes the white
queen on square 32 score 0 while the black queen on square 32 scores 5,
and the queen table is not symmetric under the 180-degree rotation). -/
theorem claim_C6_counterexample :
    colorSwapSameSquares G6 [] [mA] = true ∧
    G6.is_checkmate [] = false ∧ G6.is_stalemate [] = false ∧
    G6.is_insufficient_material [] = false ∧
    G6.is_checkmate [mA] = false ∧ G6.is_stalemate [mA] = false ∧
    G6.is_insufficient_material [mA] = false ∧
    evaluate_board G6 [mA] ≠ scoreNeg (evaluate_board G6 []) := by
  decide

/-- Claim C6 as amended: evaluate_board of a position equals the negation
of evaluate_board of the position with every piece color-swapped and moved
from square s to square 63 - s (a 180-degree rotation, matching the PST
mirror index used for black) and the side to move flipped, whenever the
terminal predicates of the rules oracle agree across the transformation. -/
theorem claim_C6_rotated_symmetry (G : Game) (p q : Pos)
    (hpieces : ∀ s ∈ List.range 64,
      G.piece_at q s = swapPieceOpt (G.piece_at p (63 - s)))
    (hturn : G.turn q = !G.turn p)
    (hcm : G.is_checkmate q = G.is_checkmate p)
    (hsm : G.is_stalemate q = G.is_stalemate p)
    (him : G.is_insufficient_material q = G.is_insufficient_material p) :
    evaluate_board G q = scoreNeg (evaluate_board G p) := by
  have hsum : boardSum G q = -boardSum G p :=
    boardSum_swap G p q (fun s hs => hpieces s (List.mem_range.mpr hs))
  unfold evaluate_board
  rw [hcm, hsm, him, hturn]
  by_cases h1 : G.is_checkmate p = true
  · cases ht : G.turn p <;>
      simp [h1, ht, scoreNeg_top, scoreNeg_bot]
  · by_cases h2 : (G.is_stalemate p || G.is_insufficient_material p) = true
    · simp [h1, h2, scoreNeg_fin]
    · simp [h1, h2, hsum, scoreNeg_fin]

/-- Witness for amended claim C6 at the concrete game G6r, whose two boards
are related by the color swap plus 180-degree rotation. -/
theorem claim_C6_witness :
    (G6r.turn [mA] = !G6r.turn []) ∧
    evaluate_board G6r [mA] = scoreNeg (evaluate_board G6r []) :=
  ⟨by decide,
    claim_C6_rotated_symmetry G6r [] [mA] (by decide) (by decide) rfl rfl rfl⟩

/-- Counterexample to claim C7 as stated: with the book available, a depth
within the book threshold, and a book lookup that raises an error other
than IndexError, the error propagates out of get_ai_move instead of being
swallowed. -/
theorem claim_C7_counterexample :
    get_ai_move GA tlNever true BookOutcome.otherError [] 2 =
      (Except.error (), []) := by
  decide

/-- Claim C7 as amended: within the book-usable threshold (depth at most 3)
with the book available, a missing book entry (IndexError) is swallowed and
falls through to the minimax search phase, a found entry is returned at
once, and any other lookup error propagates out of get_ai_move (only
IndexError is caught). -/
theorem claim_C7_only_index_error_swallowed (G : Game) (tl : Nat → Bool)
    (p : Pos) (d : Nat) (m : Move) (hd : d ≤ 3) :
    get_ai_move G tl true BookOutcome.indexError p d = searchPhase G tl p d ∧
    get_ai_move G tl true (BookOutcome.entry m) p d = (Except.ok (some m), p) ∧
    get_ai_move G tl true BookOutcome.otherError p d = (Except.error (), p) := by
  refine ⟨?_, ?_, ?_⟩ <;> simp [get_ai_move, hd]

/-- Witness for amended claim C7 at the concrete game GA at depth 2. -/
theorem claim_C7_witness :
    2 ≤ 3 ∧
    (get_ai_move GA tlNever true BookOutcome.indexError [] 2 =
        searchPhase GA tlNever [] 2 ∧
      get_ai_move GA tlNever true (BookOutcome.entry mA) [] 2 =
        (Except.ok (some mA), ([] : Pos)) ∧
      get_ai_move GA tlNever true BookOutcome.otherError [] 2 =
        (Except.error (), ([] : Pos))) :=
  ⟨by decide,
    claim_C7_only_index_error_swallowed GA tlNever [] 2 mA (by decide)⟩

/-- Counterexample to claim C8 as stated: the mate score produced by
evaluate_board on a checkmate is the floating-point infinity (the top
element), not a finite headroom-bearing integer such as 30000. -/
theorem claim_C8_counterexample :
    GD.is_checkmate [] = true ∧
    evaluate_board GD [] = (⊤ : Score) ∧
    scoreIsFinite (evaluate_board GD []) = false := by
  decide

/-- Claim C8 as amended: the forced-mate sentinels are the floating-point
infinities (top and bottom of the score order), not fixed integers; they
dominate every finite score, and the mate detection of the maximizing loop
compares against float(inf) - 1, which equals float(inf), so it triggers on
the mate sentinel and never on a finite score. -/
theorem claim_C8_infinite_sentinels (G : Game) (p : Pos) (n : ℤ)
    (hcm : G.is_checkmate p = true) (ht : G.turn p = false) :
    evaluate_board G p = (⊤ : Score) ∧
    scoreIsFinite (evaluate_board G p) = false ∧
    finScore n < (⊤ : Score) ∧ (⊥ : Score) < finScore n ∧
    ¬ infMinusOne ≤ finScore n ∧
    infMinusOne ≤ evaluate_board G p := by
  have he : evaluate_board G p = (⊤ : Score) := by
    simp [evaluate_board, hcm, ht]
  have htop : (⊤ : Score) = ((⊤ : WithTop ℤ) : Score) := rfl
  have hfin : finScore n < (⊤ : Score) := by
    rw [htop]
    exact WithBot.coe_lt_coe.mpr (WithTop.coe_lt_top n)
  have hbot : (⊥ : Score) < finScore n := WithBot.bot_lt_coe _
  refine ⟨he, ?_, hfin, hbot, ?_, ?_⟩
  · rw [he]; decide
  · exact not_le_of_lt hfin
  · rw [he]; exact le_refl (⊤ : Score)

/-- Witness for amended claim C8 at the concrete game GD and the finite
score 30000 proposed by the claim. -/
theorem claim_C8_witness :
    (GD.is_checkmate [] = true ∧ GD.turn [] = false) ∧
    (evaluate_board GD [] = (⊤ : Score) ∧
      scoreIsFinite (evaluate_board GD []) = false ∧
      finScore 30000 < (⊤ : Score) ∧ (⊥ : Score) < finScore 30000 ∧
      ¬ infMinusOne ≤ finScore 30000 ∧
      infMinusOne ≤ evaluate_board GD []) :=
  ⟨⟨by decide, by decide⟩,
    claim_C8_infinite_sentinels GD [] 30000 (by decide) (by decide)⟩

/-- Any move reported by the search phase came from the ranked root move
list, hence from the legal-move enumeration. -/
theorem searchPhase_mem (G : Game) (tl : Nat → Bool) (p : Pos) (d : Nat)
    (m : Move) (h : (searchPhase G tl p d).1 = Except.ok (some m)) :
    m ∈ G.legal_moves p := by
  simp only [searchPhase] at h
  injection h with h2
  rcases rootLoop_mem G tl d _ _ _ _ _ _ h2 with h3 | h3
  · exact Option.noConfusion h3
  · rw [orderedRootMoves] at h3
    exact (mem_sortDesc _ _ _).mp h3

/-- Claim C9: whenever get_ai_move returns a move, via the opening-book
path or via the search path, that move belongs to the rules oracle
legal-move enumeration for the position, provided the opening-book
collaborator only supplies continuations for the position (python-chess
polyglot lookup filters entries through is_legal). -/
theorem claim_C9_legal (G : Game) (tl : Nat → Bool) (ba : Bool)
    (book : BookOutcome) (p : Pos) (d : Nat) (m : Move)
    (hbook : ∀ m2 : Move, book = BookOutcome.entry m2 → m2 ∈ G.legal_moves p)
    (hres : (get_ai_move G tl ba book p d).1 = Except.ok (some m)) :
    m ∈ G.legal_moves p := by
  unfold get_ai_move at hres
  split at hres
  · cases book with
    | entry m2 =>
      have h3 : m2 = m := by simpa using hres
      exact h3 ▸ hbook m2 rfl
    | indexError => exact searchPhase_mem G tl p d m hres
    | otherError => simp at hres
  · exact searchPhase_mem G tl p d m hres

/-- Witness for claim C9: the book path of the concrete game GA returns the
book entry mA, which is a legal root move. -/
theorem claim_C9_witness :
    (get_ai_move GA tlNever true (BookOutcome.entry mA) [] 2).1 =
      Except.ok (some mA) ∧ mA ∈ GA.legal_moves [] := by
  constructor
  · decide
  · exact claim_C9_legal GA tlNever true (BookOutcome.entry mA) [] 2 mA
      (fun m2 h => by cases h; decide) (by decide)
